import Mathlib

/-!
Shallow embedding of `build_blacklist.py`: a community-moderation blacklist
reconciler.  Python strings are modelled as `List Char`; Python objects and
in-place mutation are modelled by a heap: `full_blacklist` is the append-only
list of all `BlacklistEntry` objects ever created, and an object identity is
its index in that list.  Epoch update lists hold either a reference to a store
entry (`UpdateRec.ref i`, the aliasing produced by `add_to_updates` on the
add/recategorize path) or a value-copied rename record (`UpdateRec.rename`,
the fresh `RenameEntry` object built on the rename path).  Raised exceptions
are modelled as an `Option LineErr` paired with the object state at the point
of the raise.
-/

/-- Python strings, modelled as lists of characters. -/
abbrev Str := List Char

/-- Convenience conversion from a Lean string literal. -/
def str (s : String) : Str := s.toList

/-- Python `str.lower()` (ASCII case folding, as used by the program). -/
def lowerStr (s : Str) : Str := s.map Char.toLower

/-- Does `hay` start with `needle`?  Helper for substring containment. -/
def startsWithList : Str → Str → Bool
  | [], _ => true
  | _ :: _, [] => false
  | a :: as, b :: bs => a == b && startsWithList as bs

/-- Python `needle in hay` substring containment. -/
def containsList (needle : Str) : Str → Bool
  | [] => startsWithList needle []
  | c :: rest => startsWithList needle (c :: rest) || containsList needle rest

/-- Python `str.strip()`: drop whitespace from both ends. -/
def pyStrip (s : Str) : Str :=
  ((s.dropWhile Char.isWhitespace).reverse.dropWhile Char.isWhitespace).reverse

/-- Split a list at the first occurrence of `c`, if any. -/
def splitFirstChar (c : Char) : Str → Option (Str × Str)
  | [] => none
  | x :: xs =>
    if x = c then some ([], xs)
    else
      match splitFirstChar c xs with
      | some p => some (x :: p.1, p.2)
      | none => none

/-- Python `s.rsplit(sep, 1)` for a one-character separator: split at the last
occurrence of `c`; `none` when `c` does not occur (the Python call then returns
a one-element list and tuple unpacking raises `ValueError`). -/
def rsplitOnce (s : Str) (c : Char) : Option (Str × Str) :=
  match splitFirstChar c s.reverse with
  | some p => some (p.2.reverse, p.1.reverse)
  | none => none

/-- Python `s.split(" -> ")`, the rename-directive separator split, with the
accumulator holding the current piece reversed. -/
def splitArrowAux : Str → Str → List Str
  | acc, ' ' :: '-' :: '>' :: ' ' :: rest => acc.reverse :: splitArrowAux [] rest
  | acc, c :: rest => splitArrowAux (c :: acc) rest
  | acc, [] => [acc.reverse]

/-- Python `line.split(" -> ")`. -/
def splitArrow (s : Str) : List Str := splitArrowAux [] s

/-- One record of the persisted blacklist: `BlacklistEntry` in the source. -/
structure BlacklistEntry where
  username : Str
  category : Str
deriving DecidableEq, Repr

/-- The module-level `CATEGORY_SORTING` dict of the source. -/
def CATEGORY_SORTING : List (Str × Nat) :=
  [(str "Scam", 100), (str "RMT", 200), (str "GW2Exchange", 300),
   (str "Other", 400), (str "Unknown", 500)]

/-- `BlacklistEntry.sortkey` applied to a category string: the dict value when
the category is a key of `CATEGORY_SORTING`, otherwise the fallback 500. -/
def categoryRank (c : Str) : Nat :=
  match CATEGORY_SORTING.lookup c with
  | some n => n
  | none => 500

/-- An element of an epoch update list: either a reference to the store entry
at heap index `i` (the object appended by the add/recategorize path) or a
value-copied `RenameEntry` built on the rename path. -/
inductive UpdateRec where
  | ref (i : Nat)
  | rename (username category old_username : Str)
deriving DecidableEq, Repr

/-- The `Blacklist` object: the entry heap plus the two epoch lists. -/
structure Blacklist where
  full_blacklist : List BlacklistEntry
  current_update : List UpdateRec
  previous_update : List UpdateRec
deriving DecidableEq, Repr

/-- Read the store entry at heap index `i` (indices used by the program are
always in bounds; out-of-range reads default to an empty entry). -/
def getEntryD (bl : Blacklist) (i : Nat) : BlacklistEntry :=
  bl.full_blacklist.getD i ⟨[], []⟩

/-- The `username` attribute read through an update record: live store value
for a reference, the copied value for a rename record. -/
def recUsername (bl : Blacklist) : UpdateRec → Str
  | .ref i => (getEntryD bl i).username
  | .rename u _ _ => u

/-- The `category` attribute read through an update record. -/
def recCategory (bl : Blacklist) : UpdateRec → Str
  | .ref i => (getEntryD bl i).category
  | .rename _ c _ => c

/-- First index in `l` whose username matches `u` case-insensitively. -/
def findMatch : List BlacklistEntry → Str → Option Nat
  | [], _ => none
  | e :: rest, u =>
    if lowerStr e.username = lowerStr u then some 0
    else (findMatch rest u).map Nat.succ

/-- `Blacklist.get_entry`: case-insensitive lookup, returning the identity
(heap index) of the first matching entry. -/
def get_entry (bl : Blacklist) (username : Str) : Option Nat :=
  findMatch bl.full_blacklist username

/-- Replace the element at index `i` by `f` of it (in-place field update). -/
def modifyIdx (f : α → α) : Nat → List α → List α
  | _, [] => []
  | 0, x :: xs => f x :: xs
  | n + 1, x :: xs => x :: modifyIdx f n xs

/-- In-place `entry.username = new` on the store entry with identity `i`. -/
def setUsernameAt (bl : Blacklist) (i : Nat) (new : Str) : Blacklist :=
  { bl with full_blacklist :=
      modifyIdx (fun e => { e with username := new }) i bl.full_blacklist }

/-- In-place `entry.category = c` on the store entry with identity `i`. -/
def setCategoryAt (bl : Blacklist) (i : Nat) (c : Str) : Blacklist :=
  { bl with full_blacklist :=
      modifyIdx (fun e => { e with category := c }) i bl.full_blacklist }

/-- `Blacklist.get_or_append`: overwrite the category of the existing entry
case-insensitively matching `username`, or create and append a new entry;
returns the identity of the entry together with the new heap. -/
def get_or_append (bl : Blacklist) (username category : Str) : Nat × Blacklist :=
  match get_entry bl username with
  | some i => (i, setCategoryAt bl i category)
  | none =>
    (bl.full_blacklist.length,
     { bl with full_blacklist := bl.full_blacklist ++ [⟨username, category⟩] })

/-- `Blacklist.update_username`: the three-rule rename.  `none` in the first
component models the raised `RuntimeError`; the second component is the object
state at return or at the raise. -/
def update_username (bl : Blacklist) (old new : Str) : Option Nat × Blacklist :=
  match get_entry bl new with
  | some i => (some i, bl)
  | none =>
    match get_entry bl old with
    | some i => (some i, setUsernameAt bl i new)
    | none => (none, bl)

/-- `Blacklist.add_to_updates`: append the record to the epoch list selected
by the `target` string. -/
def add_to_updates (bl : Blacklist) (entry : UpdateRec) (target : Str) : Blacklist :=
  if containsList (str "previous") target then
    { bl with previous_update := bl.previous_update ++ [entry] }
  else
    { bl with current_update := bl.current_update ++ [entry] }

/-- First record of `l` whose username attribute matches `u`
case-insensitively, reading reference records through the heap. -/
def findRec (bl : Blacklist) (u : Str) : List UpdateRec → Option UpdateRec
  | [] => none
  | r :: rest =>
    if lowerStr (recUsername bl r) = lowerStr u then some r else findRec bl u rest

/-- `Blacklist.get_entry_from_current`. -/
def get_entry_from_current (bl : Blacklist) (username : Str) : Option UpdateRec :=
  findRec bl username bl.current_update

/-- `Blacklist.get_entry_from_previous`. -/
def get_entry_from_previous (bl : Blacklist) (username : Str) : Option UpdateRec :=
  findRec bl username bl.previous_update

/-- `Blacklist.format_username`: bold when in the current update, else italic
when in the previous update, else plain. -/
def format_username (bl : Blacklist) (username : Str) : Str :=
  if (get_entry_from_current bl username).isSome then
    str "\n**" ++ username ++ str "**\n"
  else if (get_entry_from_previous bl username).isSome then
    str "\n*" ++ username ++ str "*\n"
  else username

/-- `sortkey` of an update-list element: `BlacklistEntry.sortkey` reads the
live category of the referenced store entry; `RenameEntry.sortkey` adds 10 to
the rank of the copied category. -/
def sortkey (bl : Blacklist) : UpdateRec → Nat
  | .ref i => categoryRank (getEntryD bl i).category
  | .rename _ c _ => categoryRank c + 10

/-- `to_new_str` of an update-list element. -/
def to_new_str (bl : Blacklist) : UpdateRec → Str
  | .ref i => (getEntryD bl i).username ++ '\t' :: (getEntryD bl i).category
  | .rename u c o =>
    str "[ " ++ u ++ '\t' :: (c ++ str " - Renamed from " ++ o ++ str " ]")

/-- Stable insertion of `x` into a key-sorted list, after existing elements of
equal key. -/
def insertByKey (key : α → Nat) (x : α) : List α → List α
  | [] => [x]
  | y :: ys => if key y ≤ key x then y :: insertByKey key x ys else x :: y :: ys

/-- Stable ascending sort by `key`: the semantics of Python
`sorted(l, key=key)`. -/
def sortByKey (key : α → Nat) (l : List α) : List α :=
  l.foldl (fun acc x => insertByKey key x acc) []

/-- `NewEmbed.get_names`: one line per update record, in `sortkey` order. -/
def get_names (bl : Blacklist) (use_list : List UpdateRec) : Str :=
  (sortByKey (sortkey bl) use_list).foldl
    (fun res e => res ++ to_new_str bl e ++ ['\n']) []

/-- Errors raised while processing one changelog line.  `valueError` is the
bare `ValueError` raised by tuple unpacking of a split of the wrong length (its
message does not contain the line); the other two constructors carry the data
the program prints before raising `RuntimeError`. -/
inductive LineErr where
  | valueError
  | refError (old new : Str)
  | inputFormatError (line : Str)
deriving DecidableEq, Repr

/-- The loop state of `Blacklist.__init__`: the object plus the `target`
epoch-marker string. -/
structure ParseState where
  bl : Blacklist
  target : Str
deriving DecidableEq, Repr

/-- Processing of one changelog line by the loop body of
`Blacklist.__init__`.  Returns the error raised (if any) together with the
state at return or at the raise. -/
def processStripped (st : ParseState) (line : Str) : Option LineErr × ParseState :=
  if line.isEmpty then (none, st)
  else if line.head? = some '#' then
    if containsList (str "previous") (lowerStr line) then
      (none, { st with target := str "previous" })
    else (none, st)
  else if containsList (str " -> ") line then
    match splitArrow line with
    | [old, new] =>
      match update_username st.bl old new with
      | (some i, bl') =>
        (none, ⟨add_to_updates bl'
          (UpdateRec.rename (getEntryD bl' i).username (getEntryD bl' i).category old)
          st.target, st.target⟩)
      | (none, bl') => (some (.refError old new), { st with bl := bl' })
    | _ => (some .valueError, st)
  else
    match rsplitOnce line ' ' with
    | some (username, category) =>
      if username.isEmpty || category.isEmpty then
        (some (.inputFormatError line), st)
      else
        (none, ⟨add_to_updates (get_or_append st.bl username category).2
          (UpdateRec.ref (get_or_append st.bl username category).1) st.target,
          st.target⟩)
    | none => (some .valueError, st)

/-- Processing of one raw changelog line: `line = line.strip()` followed by
the classification above. -/
def processLine (st : ParseState) (raw : Str) : Option LineErr × ParseState :=
  processStripped st (pyStrip raw)

/-- Processing of the whole changelog: stop at the first raised error. -/
def processLines (st : ParseState) : List Str → Option LineErr × ParseState
  | [] => (none, st)
  | l :: rest =>
    match processLine st l with
    | (none, st') => processLines st' rest
    | (some e, st') => (some e, st')

/-- The state at the start of `Blacklist.__init__`'s loop: the persisted
collection loaded into the store, empty epoch lists, `target = "current"`. -/
def initState (disk : List BlacklistEntry) : ParseState :=
  ⟨⟨disk, [], []⟩, str "current"⟩

/-- A whole run viewed at the persisted-collection boundary: on success the
store is saved (full overwrite); a raised error propagates out of `__init__`
before `save_blacklist`, leaving the persisted collection unchanged. -/
def runOnDisk (disk : List BlacklistEntry) (lines : List Str) : List BlacklistEntry :=
  match processLines (initState disk) lines with
  | (none, st) => st.bl.full_blacklist
  | (some _, _) => disk

/-- Does the result of a line represent the reported input-format error (the
branch that prints the offending line before raising)? -/
def isFormatErr : Option LineErr → Bool
  | some (.inputFormatError _) => true
  | _ => false

/-- Both components of a split result are non-empty. -/
def bothNonempty : Option (Str × Str) → Bool
  | some (u, c) => !u.isEmpty && !c.isEmpty
  | none => false

/-- A small concrete store used to exercise the operations. -/
def exStore : Blacklist :=
  ⟨[⟨str "Alice", str "Scam"⟩, ⟨str "Bob", str "RMT"⟩], [], []⟩

/-- The empty initial parse state (empty persisted collection). -/
def exState : ParseState := initState []

/-- A store already holding a differently-cased entry for `alice`. -/
def exStoreCased : Blacklist := ⟨[⟨str "ALICE", str "Other"⟩], [], []⟩

/-- A one-entry store with no case-insensitive match for `alice`. -/
def exStoreBob : Blacklist := ⟨[⟨str "Bob", str "RMT"⟩], [], []⟩

/-- A store whose single entry is recorded in both epoch lists. -/
def exBoth : Blacklist :=
  ⟨[⟨str "Alice", str "Scam"⟩], [UpdateRec.ref 0], [UpdateRec.ref 0]⟩

theorem findMatch_eq_none_iff (l : List BlacklistEntry) (u : Str) :
    findMatch l u = none ↔ ∀ e ∈ l, ¬ lowerStr e.username = lowerStr u := by
  induction l with
  | nil => simp [findMatch]
  | cons e rest ih =>
    by_cases h : lowerStr e.username = lowerStr u
    · simp [findMatch, h]
    · simp [findMatch, h, ih]

theorem findMatch_isSome_iff (l : List BlacklistEntry) (u : Str) :
    (findMatch l u).isSome = true ↔ ∃ e ∈ l, lowerStr e.username = lowerStr u := by
  rw [Option.isSome_iff_ne_none, Ne, findMatch_eq_none_iff]
  push_neg
  simp

theorem findMatch_cons_zero {e : BlacklistEntry} {l : List BlacklistEntry} {u : Str}
    (h : findMatch (e :: l) u = some 0) : lowerStr e.username = lowerStr u := by
  by_contra hc
  simp only [findMatch, if_neg hc, Option.map_eq_some'] at h
  obtain ⟨n, _, hn⟩ := h
  exact Nat.succ_ne_zero n hn

theorem findMatch_cons_succ {e : BlacklistEntry} {l : List BlacklistEntry} {u : Str} {n : Nat}
    (h : findMatch (e :: l) u = some (n + 1)) :
    ¬ lowerStr e.username = lowerStr u ∧ findMatch l u = some n := by
  by_cases hc : lowerStr e.username = lowerStr u
  · simp [findMatch, hc] at h
  · simp only [findMatch, if_neg hc, Option.map_eq_some'] at h
    obtain ⟨m, hm, hmn⟩ := h
    exact ⟨hc, by rwa [Nat.succ_injective hmn] at hm⟩

theorem modifyIdx_map_username_of_category (l : List BlacklistEntry) (i : Nat) (c : Str) :
    (modifyIdx (fun e => { e with category := c }) i l).map (fun e => lowerStr e.username)
      = l.map (fun e => lowerStr e.username) := by
  induction l generalizing i with
  | nil => cases i <;> rfl
  | cons e rest ih =>
    cases i with
    | zero => rfl
    | succ n => simp [modifyIdx, ih]

theorem mem_map_modifyIdx_username {x : Str} {l : List BlacklistEntry} {i : Nat} {b : Str}
    (h : x ∈ (modifyIdx (fun e => { e with username := b }) i l).map
          (fun e => lowerStr e.username)) :
    x ∈ l.map (fun e => lowerStr e.username) ∨ x = lowerStr b := by
  induction l generalizing i with
  | nil => cases i <;> simp [modifyIdx] at h
  | cons e rest ih =>
    cases i with
    | zero =>
      rcases List.mem_map.mp h with ⟨y, hy, hxy⟩
      rcases List.mem_cons.mp hy with hy0 | hy1
      · right; rw [← hxy, hy0]
      · left; exact List.mem_map.mpr ⟨y, List.mem_cons_of_mem _ hy1, hxy⟩
    | succ n =>
      simp only [modifyIdx, List.map_cons, List.mem_cons] at h
      rcases h with h0 | h1
      · left; simp [h0]
      · rcases ih h1 with hl | hr
        · left; exact List.mem_cons_of_mem _ hl
        · right; exact hr

theorem nodup_map_modifyIdx_username {l : List BlacklistEntry} {i : Nat} {b : Str}
    (hn : (l.map (fun e => lowerStr e.username)).Nodup)
    (hb : lowerStr b ∉ l.map (fun e => lowerStr e.username)) :
    ((modifyIdx (fun e => { e with username := b }) i l).map
      (fun e => lowerStr e.username)).Nodup := by
  induction l generalizing i with
  | nil => cases i <;> simp [modifyIdx]
  | cons e rest ih =>
    simp only [List.map_cons, List.nodup_cons, List.mem_cons, not_or] at hn hb
    cases i with
    | zero =>
      simp only [modifyIdx, List.map_cons, List.nodup_cons]
      exact ⟨hb.2, hn.2⟩
    | succ n =>
      simp only [modifyIdx, List.map_cons, List.nodup_cons]
      refine ⟨fun hmem => ?_, ih hn.2 hb.2⟩
      rcases mem_map_modifyIdx_username hmem with hl | hr
      · exact hn.1 hl
      · exact hb.1 hr.symm

theorem nodup_map_append_single {l : List BlacklistEntry} {b : Str}
    (hn : (l.map (fun e => lowerStr e.username)).Nodup)
    (hb : lowerStr b ∉ l.map (fun e => lowerStr e.username)) (c : Str) :
    ((l ++ [(⟨b, c⟩ : BlacklistEntry)]).map (fun e => lowerStr e.username)).Nodup := by
  rw [List.map_append]
  simp only [List.map_cons, List.map_nil]
  rw [List.nodup_append]
  refine ⟨hn, List.nodup_singleton _, ?_⟩
  intro x hx hx1
  simp only [List.mem_singleton] at hx1
  exact hb (hx1 ▸ hx)

theorem findMatch_modify_username {l : List BlacklistEntry} {a b : Str} {i : Nat}
    (hB : findMatch l b = none) (hA : findMatch l a = some i) :
    findMatch (modifyIdx (fun e => { e with username := b }) i l) b = some i := by
  induction l generalizing i with
  | nil => simp [findMatch] at hA
  | cons e rest ih =>
    rw [findMatch_eq_none_iff] at hB
    cases i with
    | zero =>
      simp [modifyIdx, findMatch]
    | succ n =>
      obtain ⟨hne, hrest⟩ := findMatch_cons_succ hA
      have hBrest : findMatch rest b = none := by
        rw [findMatch_eq_none_iff]
        exact fun x hx => hB x (List.mem_cons_of_mem _ hx)
      have heb : ¬ lowerStr e.username = lowerStr b := hB e (List.mem_cons_self _ _)
      simp only [modifyIdx, findMatch, if_neg heb, ih hBrest hrest, Option.map_some']

theorem get_entry_isSome_iff (bl : Blacklist) (u : Str) :
    (get_entry bl u).isSome = true ↔ ∃ e ∈ bl.full_blacklist, lowerStr e.username = lowerStr u :=
  findMatch_isSome_iff bl.full_blacklist u

/-- C1: `update_username` follows the three-rule rename policy.  If some store
entry matches `new` case-insensitively, the entry found by the lookup is
returned and the store is unchanged; otherwise, if some entry matches `old`,
that entry's username field is overwritten with `new` in place and the entry is
returned; otherwise the call fails with the referential error and the store is
unchanged. -/
theorem C1_rename_policy (bl : Blacklist) (old new : Str) :
    update_username bl old new =
      if ∃ e ∈ bl.full_blacklist, lowerStr e.username = lowerStr new then
        (get_entry bl new, bl)
      else if ∃ e ∈ bl.full_blacklist, lowerStr e.username = lowerStr old then
        (get_entry bl old, setUsernameAt bl ((get_entry bl old).getD 0) new)
      else (none, bl) := by
  rcases hN : get_entry bl new with _ | i
  · have hNex := get_entry_isSome_iff bl new
    rw [hN] at hNex
    simp only [Option.isSome_none, Bool.false_eq_true, false_iff] at hNex
    rw [if_neg hNex]
    rcases hO : get_entry bl old with _ | j
    · have hOex := get_entry_isSome_iff bl old
      rw [hO] at hOex
      simp only [Option.isSome_none, Bool.false_eq_true, false_iff] at hOex
      rw [if_neg hOex]
      simp [update_username, hN, hO]
    · have hOex := get_entry_isSome_iff bl old
      rw [hO] at hOex
      simp only [Option.isSome_some, true_iff] at hOex
      rw [if_pos hOex]
      simp [update_username, hN, hO]
  · have hNex := get_entry_isSome_iff bl new
    rw [hN] at hNex
    simp only [Option.isSome_some, true_iff] at hNex
    rw [if_pos hNex]
    simp [update_username, hN]

/-- C8: a successful rename is idempotent.  The second application of the same
rename matches the already-applied rule (the lookup of `new` now succeeds) and
returns the same entry with the state unchanged. -/
theorem C8_rename_idempotent (bl : Blacklist) (a b : Str) (i : Nat) (bl' : Blacklist)
    (h : update_username bl a b = (some i, bl')) :
    update_username bl' a b = (some i, bl') ∧ (get_entry bl' b).isSome = true := by
  unfold update_username at h
  rcases hB : get_entry bl b with _ | k
  · rw [hB] at h
    rcases hA : get_entry bl a with _ | m
    · rw [hA] at h
      simp at h
    · rw [hA] at h
      simp only [Prod.mk.injEq, Option.some.injEq] at h
      obtain ⟨him, hbl⟩ := h
      have hB' : get_entry bl' b = some i := by
        rw [← hbl, ← him]
        exact findMatch_modify_username hB hA
      constructor
      · unfold update_username
        rw [hB']
      · rw [hB']
        rfl
  · rw [hB] at h
    simp only [Prod.mk.injEq, Option.some.injEq] at h
    obtain ⟨hik, hbl⟩ := h
    rw [← hbl]
    have hB' : get_entry bl b = some i := by rw [hB, hik]
    constructor
    · unfold update_username
      rw [hB']
    · rw [hB']
      rfl

/-- Witness for C8 at a concrete store and rename. -/
theorem C8_witness :
    update_username ⟨[⟨str "Alice", str "Scam"⟩, ⟨str "Robert", str "RMT"⟩], [], []⟩
        (str "Bob") (str "Robert")
      = (some 1, ⟨[⟨str "Alice", str "Scam"⟩, ⟨str "Robert", str "RMT"⟩], [], []⟩) ∧
    (get_entry ⟨[⟨str "Alice", str "Scam"⟩, ⟨str "Robert", str "RMT"⟩], [], []⟩
        (str "Robert")).isSome = true :=
  C8_rename_idempotent exStore (str "Bob") (str "Robert") 1
    ⟨[⟨str "Alice", str "Scam"⟩, ⟨str "Robert", str "RMT"⟩], [], []⟩ (by decide)

/-- C5: case-insensitive username uniqueness is preserved by `get_or_append`
(upsert) and by every successful `update_username` (rename). -/
theorem C5_unique_invariant (bl : Blacklist) (u c old new : Str)
    (h : (bl.full_blacklist.map (fun e => lowerStr e.username)).Nodup) :
    ((get_or_append bl u c).2.full_blacklist.map (fun e => lowerStr e.username)).Nodup ∧
    ((update_username bl old new).1.isSome = false ∨
      ((update_username bl old new).2.full_blacklist.map
        (fun e => lowerStr e.username)).Nodup) := by
  constructor
  · rcases hU : get_entry bl u with _ | i
    · have hnotmem : lowerStr u ∉ bl.full_blacklist.map (fun e => lowerStr e.username) := by
        rw [get_entry, findMatch_eq_none_iff] at hU
        intro hmem
        rcases List.mem_map.mp hmem with ⟨e, he, heq⟩
        exact hU e he heq
      simp only [get_or_append, hU]
      exact nodup_map_append_single h hnotmem c
    · simp only [get_or_append, hU, setCategoryAt]
      rw [modifyIdx_map_username_of_category]
      exact h
  · rcases hN : get_entry bl new with _ | i
    · rcases hO : get_entry bl old with _ | j
      · left
        simp [update_username, hN, hO]
      · right
        simp only [update_username, hN, hO, setUsernameAt]
        apply nodup_map_modifyIdx_username h
        rw [get_entry, findMatch_eq_none_iff] at hN
        intro hmem
        rcases List.mem_map.mp hmem with ⟨e, he, heq⟩
        exact hN e he heq
    · right
      simp only [update_username, hN]
      exact h

/-- Witness for C5 at a concrete store, upsert and rename. -/
theorem C5_witness :
    ((get_or_append exStore (str "carol") (str "Scam")).2.full_blacklist.map
      (fun e => lowerStr e.username)).Nodup ∧
    ((update_username exStore (str "Bob") (str "Bobby")).1.isSome = false ∨
      ((update_username exStore (str "Bob") (str "Bobby")).2.full_blacklist.map
        (fun e => lowerStr e.username)).Nodup) :=
  C5_unique_invariant exStore (str "carol") (str "Scam") (str "Bob") (str "Bobby") (by decide)

theorem findMatch_append_single {l : List BlacklistEntry} {u : Str} {e : BlacklistEntry}
    (hl : findMatch l u = none) (he : lowerStr e.username = lowerStr u) :
    findMatch (l ++ [e]) u = some l.length := by
  induction l with
  | nil => simp [findMatch, he]
  | cons x rest ih =>
    rw [findMatch_eq_none_iff] at hl
    have hx : ¬ lowerStr x.username = lowerStr u := hl x (List.mem_cons_self _ _)
    have hrest : findMatch rest u = none := by
      rw [findMatch_eq_none_iff]
      exact fun y hy => hl y (List.mem_cons_of_mem _ hy)
    simp only [List.cons_append, findMatch, if_neg hx]
    show Option.map Nat.succ (findMatch (rest ++ [e]) u) = some (rest.length + 1)
    rw [ih hrest]
    rfl

theorem modifyIdx_append_length (f : α → α) (l : List α) (x : α) :
    modifyIdx f l.length (l ++ [x]) = l ++ [f x] := by
  induction l with
  | nil => rfl
  | cons y rest ih => simp [modifyIdx, ih]

theorem modifyIdx_map_username_plain (l : List BlacklistEntry) (i : Nat) (c : Str) :
    (modifyIdx (fun e => { e with category := c }) i l).map (fun e => e.username)
      = l.map (fun e => e.username) := by
  induction l generalizing i with
  | nil => cases i <;> rfl
  | cons e rest ih =>
    cases i with
    | zero => rfl
    | succ n => simp [modifyIdx, ih]


theorem get_or_append_of_none {bl : Blacklist} {u c : Str}
    (h : get_entry bl u = none) :
    get_or_append bl u c
      = (bl.full_blacklist.length,
         { bl with full_blacklist := bl.full_blacklist ++ [⟨u, c⟩] }) := by
  simp [get_or_append, h]

theorem get_or_append_of_some {bl : Blacklist} {u c : Str} {i : Nat}
    (h : get_entry bl u = some i) :
    get_or_append bl u c = (i, setCategoryAt bl i c) := by
  simp [get_or_append, h]

/-- C9 counterexample: on a store already holding a differently-cased entry
`ALICE`, the pair `upsert("Alice","Scam")`, `upsert("ALICE","RMT")` leaves the
single matching entry with username `ALICE`, not `Alice` as the claim states
for every store. -/
theorem C9_counterexample :
    (get_or_append (get_or_append exStoreCased (str "Alice") (str "Scam")).2
        (str "ALICE") (str "RMT")).2.full_blacklist
      = [⟨str "ALICE", str "RMT"⟩] ∧
    (str "ALICE" == str "Alice") = false := by decide

/-- C9 amended: on a store with no entry matching `alice` case-insensitively,
the upsert pair yields exactly one matching entry, with first-seen casing
`Alice` and category `RMT`; in general, upserting an unmatched username
appends a new entry, and upserting a matched username overwrites that entry's
category in place while leaving every stored username unchanged. -/
theorem C9_upsert_amended (bl : Blacklist) (u c : Str) (i : Nat)
    (h : ∀ e ∈ bl.full_blacklist, (lowerStr e.username == str "alice") = false) :
    (get_or_append (get_or_append bl (str "Alice") (str "Scam")).2
        (str "ALICE") (str "RMT")).2.full_blacklist.filter
        (fun e => lowerStr e.username == str "alice")
      = [⟨str "Alice", str "RMT"⟩] ∧
    ((get_entry bl u).isSome = true ∨
      (get_or_append bl u c).2.full_blacklist = bl.full_blacklist ++ [⟨u, c⟩]) ∧
    (get_entry bl u = some i →
      (get_or_append bl u c).2.full_blacklist
        = modifyIdx (fun e => { e with category := c }) i bl.full_blacklist ∧
      (get_or_append bl u c).2.full_blacklist.map (fun e => e.username)
        = bl.full_blacklist.map (fun e => e.username)) := by
  have hlow : lowerStr (str "Alice") = str "alice" := by decide
  have hnone : ∀ e ∈ bl.full_blacklist, ¬ lowerStr e.username = lowerStr (str "Alice") := by
    intro e he heq
    have hb := h e he
    rw [heq, hlow] at hb
    simp at hb
  refine ⟨?_, ?_, ?_⟩
  · have h1 : get_entry bl (str "Alice") = none := by
      rw [get_entry, findMatch_eq_none_iff]
      exact hnone
    have hstep1 : (get_or_append bl (str "Alice") (str "Scam")).2.full_blacklist
        = bl.full_blacklist ++ [⟨str "Alice", str "Scam"⟩] := by
      rw [get_or_append_of_none h1]
    have h2 : get_entry (get_or_append bl (str "Alice") (str "Scam")).2 (str "ALICE")
        = some bl.full_blacklist.length := by
      rw [get_entry, hstep1]
      apply findMatch_append_single
      · rw [findMatch_eq_none_iff]
        intro e he heq
        exact hnone e he (by rw [heq]; decide)
      · decide
    have hstep2 : (get_or_append (get_or_append bl (str "Alice") (str "Scam")).2
        (str "ALICE") (str "RMT")).2.full_blacklist
        = bl.full_blacklist ++ [⟨str "Alice", str "RMT"⟩] := by
      rw [get_or_append_of_some h2]
      show modifyIdx (fun e => { e with category := str "RMT" }) bl.full_blacklist.length
            (get_or_append bl (str "Alice") (str "Scam")).2.full_blacklist
          = bl.full_blacklist ++ [⟨str "Alice", str "RMT"⟩]
      rw [hstep1, modifyIdx_append_length]
    rw [hstep2, List.filter_append]
    have hfl : bl.full_blacklist.filter (fun e => lowerStr e.username == str "alice") = [] := by
      rw [List.filter_eq_nil_iff]
      intro e he
      rw [h e he]
      simp
    rw [hfl]
    simp [hlow]
  · rcases hU : get_entry bl u with _ | j
    · right
      simp [get_or_append_of_none hU]
    · left
      rfl
  · intro hU
    refine ⟨?_, ?_⟩
    · rw [get_or_append_of_some hU]
      rfl
    · rw [get_or_append_of_some hU]
      exact modifyIdx_map_username_plain bl.full_blacklist i c

/-- Witness for the amended C9 at a concrete store. -/
theorem C9_witness :
    (get_or_append (get_or_append exStoreBob (str "Alice") (str "Scam")).2
        (str "ALICE") (str "RMT")).2.full_blacklist.filter
        (fun e => lowerStr e.username == str "alice")
      = [⟨str "Alice", str "RMT"⟩] ∧
    ((get_entry exStoreBob (str "BOB")).isSome = true ∨
      (get_or_append exStoreBob (str "BOB") (str "Scam")).2.full_blacklist
        = exStoreBob.full_blacklist ++ [⟨str "BOB", str "Scam"⟩]) ∧
    ((get_or_append exStoreBob (str "BOB") (str "Scam")).2.full_blacklist
        = modifyIdx (fun e => { e with category := str "Scam" }) 0 exStoreBob.full_blacklist ∧
     (get_or_append exStoreBob (str "BOB") (str "Scam")).2.full_blacklist.map
        (fun e => e.username)
        = exStoreBob.full_blacklist.map (fun e => e.username)) :=
  ⟨(C9_upsert_amended exStoreBob (str "BOB") (str "Scam") 0 (by decide)).1,
   (C9_upsert_amended exStoreBob (str "BOB") (str "Scam") 0 (by decide)).2.1,
   (C9_upsert_amended exStoreBob (str "BOB") (str "Scam") 0 (by decide)).2.2 (by decide)⟩

theorem findRec_isSome_iff (bl : Blacklist) (u : Str) (l : List UpdateRec) :
    (findRec bl u l).isSome = true ↔ ∃ r ∈ l, lowerStr (recUsername bl r) = lowerStr u := by
  induction l with
  | nil => simp [findRec]
  | cons r rest ih =>
    by_cases h : lowerStr (recUsername bl r) = lowerStr u
    · simp [findRec, h]
    · simp [findRec, h, ih]

/-- C6: `format_username` checks the current epoch before the previous one.
A username with a case-insensitive match in `current_update` is wrapped in
bold markers; one matching only `previous_update` is wrapped in italic
markers; one matching neither is returned bare.  A username present in both
lists takes the first branch and so renders with current (bold) emphasis
only. -/
theorem C6_emphasis_order (bl : Blacklist) (u : Str) :
    format_username bl u =
      if ∃ r ∈ bl.current_update, lowerStr (recUsername bl r) = lowerStr u then
        str "\n**" ++ u ++ str "**\n"
      else if ∃ r ∈ bl.previous_update, lowerStr (recUsername bl r) = lowerStr u then
        str "\n*" ++ u ++ str "*\n"
      else u := by
  rw [format_username, get_entry_from_current, get_entry_from_previous]
  by_cases hc : ∃ r ∈ bl.current_update, lowerStr (recUsername bl r) = lowerStr u
  · rw [if_pos hc, if_pos ((findRec_isSome_iff bl u bl.current_update).mpr hc)]
  · rw [if_neg hc,
      if_neg (fun hck => hc ((findRec_isSome_iff bl u bl.current_update).mp hck))]
    by_cases hp : ∃ r ∈ bl.previous_update, lowerStr (recUsername bl r) = lowerStr u
    · rw [if_pos hp, if_pos ((findRec_isSome_iff bl u bl.previous_update).mpr hp)]
    · rw [if_neg hp,
        if_neg (fun hpk => hp ((findRec_isSome_iff bl u bl.previous_update).mp hpk))]

theorem mem_insertByKey {key : α → Nat} {x z : α} {l : List α}
    (h : z ∈ insertByKey key x l) : z = x ∨ z ∈ l := by
  induction l with
  | nil => simpa [insertByKey] using h
  | cons y ys ih =>
    simp only [insertByKey] at h
    by_cases hk : key y ≤ key x
    · rw [if_pos hk] at h
      rcases List.mem_cons.mp h with h0 | h1
      · right
        exact h0 ▸ List.mem_cons_self _ _
      · rcases ih h1 with ha | hb
        · left; exact ha
        · right
          exact List.mem_cons_of_mem _ hb
    · rw [if_neg hk] at h
      rcases List.mem_cons.mp h with h0 | h1
      · left; exact h0
      · right; exact h1

theorem pairwise_insertByKey {key : α → Nat} {x : α} {l : List α}
    (h : l.Pairwise (fun a b => key a ≤ key b)) :
    (insertByKey key x l).Pairwise (fun a b => key a ≤ key b) := by
  induction l with
  | nil => simp [insertByKey]
  | cons y ys ih =>
    rcases List.pairwise_cons.mp h with ⟨hy, hys⟩
    simp only [insertByKey]
    by_cases hk : key y ≤ key x
    · rw [if_pos hk, List.pairwise_cons]
      refine ⟨fun z hz => ?_, ih hys⟩
      rcases mem_insertByKey hz with rfl | hzm
      · exact hk
      · exact hy z hzm
    · rw [if_neg hk, List.pairwise_cons]
      refine ⟨fun z hz => ?_, h⟩
      rcases List.mem_cons.mp hz with rfl | hzm
      · exact Nat.le_of_lt (Nat.lt_of_not_le hk)
      · exact Nat.le_trans (Nat.le_of_lt (Nat.lt_of_not_le hk)) (hy z hzm)

theorem pairwise_sortByKey (key : α → Nat) (l : List α) :
    (sortByKey key l).Pairwise (fun a b => key a ≤ key b) := by
  have hgen : ∀ (l acc : List α), acc.Pairwise (fun a b => key a ≤ key b) →
      (l.foldl (fun acc x => insertByKey key x acc) acc).Pairwise
        (fun a b => key a ≤ key b) := by
    intro l
    induction l with
    | nil =>
      intro acc hacc
      simpa using hacc
    | cons x xs ih =>
      intro acc hacc
      exact ih _ (pairwise_insertByKey hacc)
  exact hgen l [] List.Pairwise.nil

/-- C7: the composite sort key of the "new entries" document.  A plain record
is keyed by the fixed category rank (Scam 100, RMT 200, GW2Exchange 300,
Other 400, Unknown 500, anything else 500); a rename-annotated record is
keyed 10 higher than a plain record of the same category.  The list rendered
by `get_names` (the `sortkey`-sorted epoch list) is ascending in this key, so
Scam lines precede RMT lines precede Other lines, and within a category every
plain line precedes every rename-annotated line. -/
theorem C7_sort_order (bl : Blacklist) (l : List UpdateRec) (u o c : Str) (i : Nat) :
    sortkey bl (UpdateRec.rename u c o) = categoryRank c + 10 ∧
    sortkey bl (UpdateRec.ref i) = categoryRank (getEntryD bl i).category ∧
    categoryRank (str "Scam") = 100 ∧ categoryRank (str "RMT") = 200 ∧
    categoryRank (str "GW2Exchange") = 300 ∧ categoryRank (str "Other") = 400 ∧
    categoryRank (str "Unknown") = 500 ∧
    (CATEGORY_SORTING.lookup c = none → categoryRank c = 500) ∧
    (sortByKey (sortkey bl) l).Pairwise (fun a b => sortkey bl a ≤ sortkey bl b) := by
  refine ⟨rfl, rfl, by decide, by decide, by decide, by decide, by decide, ?_,
    pairwise_sortByKey _ _⟩
  intro hc
  rw [categoryRank, hc]

/-- Witness for C7 at a concrete store, epoch list and unrecognized
category. -/
theorem C7_witness :
    sortkey exStore (UpdateRec.rename (str "C") (str "Bogus") (str "Cold"))
      = categoryRank (str "Bogus") + 10 ∧
    sortkey exStore (UpdateRec.ref 0) = categoryRank (getEntryD exStore 0).category ∧
    categoryRank (str "Scam") = 100 ∧ categoryRank (str "RMT") = 200 ∧
    categoryRank (str "GW2Exchange") = 300 ∧ categoryRank (str "Other") = 400 ∧
    categoryRank (str "Unknown") = 500 ∧
    categoryRank (str "Bogus") = 500 ∧
    (sortByKey (sortkey exStore)
      [UpdateRec.ref 1, UpdateRec.rename (str "C") (str "Scam") (str "Cold"),
       UpdateRec.ref 0]).Pairwise
      (fun a b => sortkey exStore a ≤ sortkey exStore b) := by
  have h := C7_sort_order exStore
    [UpdateRec.ref 1, UpdateRec.rename (str "C") (str "Scam") (str "Cold"),
     UpdateRec.ref 0] (str "C") (str "Cold") (str "Bogus") 0
  exact ⟨h.1, h.2.1, h.2.2.1, h.2.2.2.1, h.2.2.2.2.1, h.2.2.2.2.2.1, h.2.2.2.2.2.2.1,
    h.2.2.2.2.2.2.2.1 (by decide), h.2.2.2.2.2.2.2.2⟩

theorem get_or_append_epoch (bl : Blacklist) (u c : Str) :
    (get_or_append bl u c).2.current_update = bl.current_update ∧
    (get_or_append bl u c).2.previous_update = bl.previous_update := by
  rcases h : get_entry bl u with _ | i
  · rw [get_or_append_of_none h]
    exact ⟨rfl, rfl⟩
  · rw [get_or_append_of_some h]
    exact ⟨rfl, rfl⟩

theorem update_username_epoch (bl : Blacklist) (old new : Str) :
    (update_username bl old new).2.current_update = bl.current_update ∧
    (update_username bl old new).2.previous_update = bl.previous_update := by
  rcases hN : get_entry bl new with _ | i
  · rcases hO : get_entry bl old with _ | j
    · simp [update_username, hN, hO]
    · simp [update_username, hN, hO, setUsernameAt]
  · simp [update_username, hN]

theorem add_to_updates_suffix (bl : Blacklist) (r : UpdateRec) (t : Str) :
    (∃ s, (add_to_updates bl r t).current_update = bl.current_update ++ s) ∧
    (∃ s, (add_to_updates bl r t).previous_update = bl.previous_update ++ s) := by
  rw [add_to_updates]
  by_cases h : containsList (str "previous") t = true
  · rw [if_pos h]
    exact ⟨⟨[], by simp⟩, ⟨[r], rfl⟩⟩
  · rw [if_neg h]
    exact ⟨⟨[r], rfl⟩, ⟨[], by simp⟩⟩

theorem processStripped_suffix (st : ParseState) (line : Str) :
    (∃ s, (processStripped st line).2.bl.current_update = st.bl.current_update ++ s) ∧
    (∃ s, (processStripped st line).2.bl.previous_update = st.bl.previous_update ++ s) := by
  have hadd : ∀ (bl' : Blacklist) (r : UpdateRec),
      bl'.current_update = st.bl.current_update →
      bl'.previous_update = st.bl.previous_update →
      (∃ s, (add_to_updates bl' r st.target).current_update
          = st.bl.current_update ++ s) ∧
      (∃ s, (add_to_updates bl' r st.target).previous_update
          = st.bl.previous_update ++ s) := by
    intro bl' r hc hp
    obtain ⟨⟨s1, hs1⟩, s2, hs2⟩ := add_to_updates_suffix bl' r st.target
    exact ⟨⟨s1, by rw [hs1, hc]⟩, ⟨s2, by rw [hs2, hp]⟩⟩
  rw [processStripped]
  split
  · exact ⟨⟨[], by simp⟩, ⟨[], by simp⟩⟩
  split
  · split
    · exact ⟨⟨[], by simp⟩, ⟨[], by simp⟩⟩
    · exact ⟨⟨[], by simp⟩, ⟨[], by simp⟩⟩
  split
  · split
    · rename_i old new hsp
      split
      · rename_i pr i bl' hup
        obtain ⟨hc, hp⟩ := update_username_epoch st.bl old new
        rw [hup] at hc hp
        exact hadd bl' _ hc hp
      · rename_i pr bl' hup
        obtain ⟨hc, hp⟩ := update_username_epoch st.bl old new
        rw [hup] at hc hp
        refine ⟨⟨[], ?_⟩, ⟨[], ?_⟩⟩
        · simpa using hc
        · simpa using hp
    · exact ⟨⟨[], by simp⟩, ⟨[], by simp⟩⟩
  · split
    · rename_i username category hsp
      split
      · exact ⟨⟨[], by simp⟩, ⟨[], by simp⟩⟩
      · obtain ⟨hc, hp⟩ := get_or_append_epoch st.bl username category
        exact hadd _ _ hc hp
    · exact ⟨⟨[], by simp⟩, ⟨[], by simp⟩⟩

theorem processLine_suffix (st : ParseState) (raw : Str) :
    (∃ s, (processLine st raw).2.bl.current_update = st.bl.current_update ++ s) ∧
    (∃ s, (processLine st raw).2.bl.previous_update = st.bl.previous_update ++ s) :=
  processStripped_suffix st (pyStrip raw)

theorem processLines_suffix (st : ParseState) (lines : List Str) :
    (∃ s, (processLines st lines).2.bl.current_update = st.bl.current_update ++ s) ∧
    (∃ s, (processLines st lines).2.bl.previous_update = st.bl.previous_update ++ s) := by
  induction lines generalizing st with
  | nil => exact ⟨⟨[], by simp [processLines]⟩, ⟨[], by simp [processLines]⟩⟩
  | cons l rest ih =>
    rw [processLines]
    obtain ⟨⟨s1, hs1⟩, s2, hs2⟩ := processLine_suffix st l
    rcases hpl : processLine st l with ⟨o, st'⟩
    rw [hpl] at hs1 hs2
    have hs1' : st'.bl.current_update = st.bl.current_update ++ s1 := hs1
    have hs2' : st'.bl.previous_update = st.bl.previous_update ++ s2 := hs2
    cases o with
    | none =>
      obtain ⟨⟨t1, ht1⟩, t2, ht2⟩ := ih st'
      refine ⟨⟨s1 ++ t1, ?_⟩, ⟨s2 ++ t2, ?_⟩⟩
      · show (processLines st' rest).2.bl.current_update = _
        rw [ht1, hs1', List.append_assoc]
      · show (processLines st' rest).2.bl.previous_update = _
        rw [ht2, hs2', List.append_assoc]
    | some e =>
      exact ⟨⟨s1, hs1'⟩, ⟨s2, hs2'⟩⟩

/-- C2 counterexample: epoch update records on the add/recategorize path are
references to the store entry, not value copies.  After `Alice Scam` the
single current-update record reads category `Scam`; the later directive
`Alice RMT` mutates the same store entry, and the already-recorded update
record now reads category `RMT`. -/
theorem C2_counterexample :
    (processLine exState (str "Alice Scam")).2.bl.current_update
      = [UpdateRec.ref 0] ∧
    recCategory (processLine exState (str "Alice Scam")).2.bl (UpdateRec.ref 0)
      = str "Scam" ∧
    (processLine (processLine exState (str "Alice Scam")).2
        (str "Alice RMT")).2.bl.current_update
      = [UpdateRec.ref 0, UpdateRec.ref 0] ∧
    recCategory (processLine (processLine exState (str "Alice Scam")).2
        (str "Alice RMT")).2.bl (UpdateRec.ref 0)
      = str "RMT" ∧
    (str "Scam" == str "RMT") = false := by decide

/-- C2 amended: the epoch lists are append-only over a run (records already
recorded are never removed, reordered or replaced), and rename-annotated
records are value copies whose username/category fields are fixed at
recording time (independent of any later store state); plain add/recategorize
records, however, are references to the store entry, through which later
mutations of that entry's fields are visible. -/
theorem C2_epoch_records (st : ParseState) (lines : List Str) :
    (∃ s, (processLines st lines).2.bl.current_update = st.bl.current_update ++ s) ∧
    (∃ s, (processLines st lines).2.bl.previous_update = st.bl.previous_update ++ s) ∧
    (∀ (bl2 : Blacklist) (u c o : Str),
      recUsername bl2 (UpdateRec.rename u c o) = u ∧
      recCategory bl2 (UpdateRec.rename u c o) = c) ∧
    (∀ (bl2 : Blacklist) (i : Nat),
      recUsername bl2 (UpdateRec.ref i) = (getEntryD bl2 i).username ∧
      recCategory bl2 (UpdateRec.ref i) = (getEntryD bl2 i).category) := by
  obtain ⟨h1, h2⟩ := processLines_suffix st lines
  exact ⟨h1, h2, fun bl2 u c o => ⟨rfl, rfl⟩, fun bl2 i => ⟨rfl, rfl⟩⟩

/-- C3: a non-empty, non-comment add line with no space (no category token)
aborts the run at once, but with the bare unpacking `ValueError`, which does
not carry the offending line; the reported input-format error (the branch
that prints the line) is not what is raised. -/
theorem C3_missing_category :
    processLines exState [str "Spammer", str "Alice Scam"]
      = (some LineErr.valueError, exState) ∧
    isFormatErr (some LineErr.valueError) = false := by decide

/-- C4: when processing of the directive stream raises, the persisted
collection is left untouched (the save runs only after the whole stream has
been processed in memory), and a failing rename returns the store exactly as
it was. -/
theorem C4_no_save_on_failure (disk : List BlacklistEntry) (lines : List Str)
    (bl : Blacklist) (old new : Str)
    (h : (processLines (initState disk) lines).1.isSome = true) :
    runOnDisk disk lines = disk ∧
    ((update_username bl old new).1.isSome = true ∨
      (update_username bl old new).2 = bl) := by
  constructor
  · rcases hp : processLines (initState disk) lines with ⟨o, st2⟩
    rcases o with _ | e
    · rw [hp] at h
      simp at h
    · rw [runOnDisk, hp]
  · rcases hN : get_entry bl new with _ | i
    · rcases hO : get_entry bl old with _ | j
      · right
        simp [update_username, hN, hO]
      · left
        simp [update_username, hN, hO]
    · left
      simp [update_username, hN]

/-- Witness for C4: a changelog whose only directive is a rename of an
unknown username fails and leaves the persisted collection unchanged. -/
theorem C4_witness :
    runOnDisk [⟨str "Alice", str "Scam"⟩, ⟨str "Bob", str "RMT"⟩]
        [str "Ghost -> Phantom"]
      = [⟨str "Alice", str "Scam"⟩, ⟨str "Bob", str "RMT"⟩] ∧
    ((update_username exStore (str "Ghost") (str "Phantom")).1.isSome = true ∨
      (update_username exStore (str "Ghost") (str "Phantom")).2 = exStore) :=
  C4_no_save_on_failure [⟨str "Alice", str "Scam"⟩, ⟨str "Bob", str "RMT"⟩]
    [str "Ghost -> Phantom"] exStore (str "Ghost") (str "Phantom") (by decide)

theorem head_dropWhile_false (p : Char → Bool) (l : Str) {a : Char}
    (h : (l.dropWhile p).head? = some a) : p a = false := by
  induction l with
  | nil => simp [List.dropWhile] at h
  | cons x xs ih =>
    rw [List.dropWhile_cons] at h
    by_cases hp : p x = true
    · rw [if_pos hp] at h
      exact ih h
    · rw [if_neg hp] at h
      have hx : x = a := by simpa using h
      subst hx
      simpa using hp

theorem dropWhile_decomp (p : Char → Bool) (l : Str) :
    ∃ t, l = t ++ l.dropWhile p := by
  induction l with
  | nil => exact ⟨[], rfl⟩
  | cons x xs ih =>
    by_cases hp : p x = true
    · obtain ⟨t, ht⟩ := ih
      refine ⟨x :: t, ?_⟩
      rw [List.dropWhile_cons, if_pos hp, List.cons_append, ← ht]
    · refine ⟨[], ?_⟩
      rw [List.dropWhile_cons, if_neg hp, List.nil_append]

theorem pyStrip_getLast_not_ws {raw : Str} {a : Char}
    (h : (pyStrip raw).getLast? = some a) : a.isWhitespace = false := by
  rw [pyStrip, List.getLast?_reverse] at h
  exact head_dropWhile_false _ _ h

theorem pyStrip_head_not_ws {raw : Str} {a : Char}
    (h : (pyStrip raw).head? = some a) : a.isWhitespace = false := by
  rw [pyStrip, List.head?_reverse] at h
  obtain ⟨t, ht⟩ :=
    dropWhile_decomp Char.isWhitespace (raw.dropWhile Char.isWhitespace).reverse
  have hne : (raw.dropWhile Char.isWhitespace).reverse.dropWhile Char.isWhitespace ≠ [] := by
    intro h0
    rw [h0] at h
    simp at h
  have hm : ((raw.dropWhile Char.isWhitespace).reverse).getLast? = some a := by
    rw [ht, List.getLast?_append_of_ne_nil _ hne]
    exact h
  rw [List.getLast?_reverse] at hm
  exact head_dropWhile_false _ _ hm

theorem splitFirstChar_eq {c : Char} {l : Str} : ∀ {a b : Str},
    splitFirstChar c l = some (a, b) → l = a ++ c :: b ∧ c ∉ a := by
  induction l with
  | nil => intro a b h; simp [splitFirstChar] at h
  | cons x xs ih =>
    intro a b h
    rw [splitFirstChar] at h
    by_cases hx : x = c
    · rw [if_pos hx] at h
      simp only [Option.some.injEq, Prod.mk.injEq] at h
      obtain ⟨ha, hb⟩ := h
      subst hx
      rw [← ha, ← hb]
      exact ⟨rfl, by simp⟩
    · rw [if_neg hx] at h
      cases hs : splitFirstChar c xs with
      | none => rw [hs] at h; simp at h
      | some p =>
        rw [hs] at h
        simp only [Option.some.injEq, Prod.mk.injEq] at h
        obtain ⟨ha, hb⟩ := h
        obtain ⟨hxs, hnm⟩ := ih (a := p.1) (b := p.2) (hs.trans rfl)
        constructor
        · rw [← ha, ← hb, List.cons_append, ← hxs]
        · rw [← ha]
          intro hcm
          rcases List.mem_cons.mp hcm with hc1 | hc2
          · exact hx hc1.symm
          · exact hnm hc2

theorem rsplitOnce_eq {s u v : Str} {c : Char}
    (h : rsplitOnce s c = some (u, v)) : s = u ++ c :: v ∧ c ∉ v := by
  rw [rsplitOnce] at h
  cases hs : splitFirstChar c s.reverse with
  | none => rw [hs] at h; simp at h
  | some p =>
    rw [hs] at h
    simp only [Option.some.injEq, Prod.mk.injEq] at h
    obtain ⟨hu, hv⟩ := h
    obtain ⟨hrev, hnm⟩ := splitFirstChar_eq (hs.trans rfl)
    constructor
    · have hs2 : s = (p.1 ++ c :: p.2).reverse := by
        rw [← hrev, List.reverse_reverse]
      rw [hs2, List.reverse_append, List.reverse_cons, ← hu, ← hv]
      simp [List.append_assoc]
    · rw [← hv]
      intro hm
      exact hnm (List.mem_reverse.mp hm)

theorem splitFirstChar_none_iff (c : Char) (l : Str) :
    splitFirstChar c l = none ↔ c ∉ l := by
  induction l with
  | nil => simp [splitFirstChar]
  | cons x xs ih =>
    rw [splitFirstChar]
    by_cases hx : x = c
    · rw [if_pos hx]
      simp [hx]
    · rw [if_neg hx]
      cases hs : splitFirstChar c xs with
      | none =>
        have hmem := ih.mp hs
        have hcx : ¬ c = x := fun h => hx h.symm
        simp [hs, hmem, hcx]
      | some p =>
        have hmem : c ∈ xs := by
          by_contra hcm
          rw [← ih] at hcm
          rw [hs] at hcm
          exact Option.noConfusion hcm
        simp [hmem]

theorem rsplitOnce_none_iff (s : Str) (c : Char) :
    rsplitOnce s c = none ↔ c ∉ s := by
  rw [rsplitOnce]
  cases hs : splitFirstChar c s.reverse with
  | none =>
    have hnm := (splitFirstChar_none_iff c s.reverse).mp hs
    simp only [List.mem_reverse] at hnm
    simp [hnm]
  | some p =>
    have hne : ¬ splitFirstChar c s.reverse = none := by
      rw [hs]
      exact fun h => Option.noConfusion h
    have hmem : c ∈ s := by
      by_contra hcm
      exact hne ((splitFirstChar_none_iff c s.reverse).mpr
        (fun hr => hcm (List.mem_reverse.mp hr)))
    simp [hmem]

/-- C10: the reported "Unable to process input line" branch is unreachable.
Processing a line never produces the reported input-format error: for a
stripped non-empty, non-comment, non-rename line containing a space, the
rightmost-space split always yields a non-empty username and a non-empty
category (a stripped line neither starts nor ends with whitespace); a line
with no space instead fails at the split itself with the bare unpacking
`ValueError`. -/
theorem C10_unreachable_branch (st : ParseState) (raw : Str) :
    isFormatErr (processLine st raw).1 = false ∧
    (pyStrip raw ≠ [] → (pyStrip raw).head? ≠ some '#' →
      containsList (str " -> ") (pyStrip raw) = false →
      ((' ' ∈ pyStrip raw →
          bothNonempty (rsplitOnce (pyStrip raw) ' ') = true) ∧
       (' ' ∉ pyStrip raw →
          (processLine st raw).1 = some LineErr.valueError))) := by
  have hksplit : ∀ u v, rsplitOnce (pyStrip raw) ' ' = some (u, v) →
      (u.isEmpty || v.isEmpty) = false := by
    intro u v hsp
    obtain ⟨heq, hnm⟩ := rsplitOnce_eq hsp
    have hu : u ≠ [] := by
      intro h0
      subst h0
      have hh : (pyStrip raw).head? = some ' ' := by rw [heq]; rfl
      have hws := pyStrip_head_not_ws hh
      exact absurd hws (by decide)
    have hv : v ≠ [] := by
      intro h0
      subst h0
      have hh : (pyStrip raw).getLast? = some ' ' := by
        rw [heq]
        exact List.getLast?_concat _
      have hws := pyStrip_getLast_not_ws hh
      exact absurd hws (by decide)
    cases u with
    | nil => exact absurd rfl hu
    | cons a as =>
      cases v with
      | nil => exact absurd rfl hv
      | cons b bs => rfl
  constructor
  · rw [processLine, processStripped]
    split
    · rfl
    split
    · split
      · rfl
      · rfl
    split
    · split
      · split
        · rfl
        · rfl
      · rfl
    · split
      · rename_i username category hsp
        split
        · rename_i hcond
          rw [hksplit username category hsp] at hcond
          exact absurd hcond (by simp)
        · rfl
      · rfl
  · intro hne hhash harrow
    constructor
    · intro hsp_mem
      cases hs : rsplitOnce (pyStrip raw) ' ' with
      | none =>
        rw [rsplitOnce_none_iff] at hs
        exact absurd hsp_mem hs
      | some p =>
        obtain ⟨u, v⟩ := p
        have hb := hksplit u v hs
        show (!u.isEmpty && !v.isEmpty) = true
        cases hu : u.isEmpty with
        | false =>
          cases hv : v.isEmpty with
          | false => rfl
          | true =>
            rw [hu, hv] at hb
            simp at hb
        | true =>
          rw [hu] at hb
          simp at hb
    · intro hnm
      have hs : rsplitOnce (pyStrip raw) ' ' = none := (rsplitOnce_none_iff _ _).mpr hnm
      rw [processLine, processStripped,
        if_neg (fun h => hne (List.isEmpty_iff.mp h)), if_neg hhash,
        if_neg (by simp [harrow]), hs]

/-- Witness for C10: a two-token line splits into non-empty pieces; a
one-token line raises the bare unpacking error. -/
theorem C10_witness :
    bothNonempty (rsplitOnce (pyStrip (str "Alice Scam")) ' ') = true ∧
    (processLine exState (str "Spammer2")).1 = some LineErr.valueError :=
  ⟨((C10_unreachable_branch exState (str "Alice Scam")).2 (by decide) (by decide)
      (by decide)).1 (by decide),
   ((C10_unreachable_branch exState (str "Spammer2")).2 (by decide) (by decide)
      (by decide)).2 (by decide)⟩
